import Mathlib

/-!
Verification of the hashing / caching layer (`pkg/obf/obf.go`) and the
variable-arity syscall trampoline (`pkg/unhook/do_syscall.S`) of
carved4/go-native-syscall.

Go strings and byte slices are modelled as `List Nat`, each element a byte
value below 256; `uint32` arithmetic is modelled on `Nat` with explicit
`% 2 ^ 32` where the Go code wraps.
-/

set_option autoImplicit false

namespace GoNativeSyscall

/-- A Go string viewed as its byte sequence (`[]byte(s)` is the identity here). -/
abbrev Str := List Nat

/-- The case fold in `DBJ2Hash` and `FNV1AHash`: Go applies `b -= 0x20`
whenever `b >= 0x61` (the byte literal `a`), with no upper bound. -/
def foldCase (b : Nat) : Nat :=
  if 0x61 ≤ b then b - 0x20 else b

/-- One loop iteration of `DBJ2Hash`: zero bytes are skipped, every other
byte is case-folded and accumulated as `hash = ((hash << 5) + hash) + b`
in `uint32` arithmetic. -/
def dbj2Step (hash b : Nat) : Nat :=
  if b = 0 then hash
  else ((hash * 2 ^ 5 % 2 ^ 32 + hash) % 2 ^ 32 + foldCase b) % 2 ^ 32

/-- `DBJ2Hash` from `pkg/obf/obf.go`: seed 5381, loop over the buffer. -/
def DBJ2Hash (buffer : List Nat) : Nat :=
  buffer.foldl dbj2Step 5381

/-- `DBJ2HashStr` hashes the bytes of a string. -/
def DBJ2HashStr (s : Str) : Nat :=
  DBJ2Hash s

/-- One loop iteration of `FNV1AHash`: zero bytes skipped, case fold, then
`hash ^= b; hash *= 16777619` in `uint32` arithmetic. -/
def fnv1aStep (hash b : Nat) : Nat :=
  if b = 0 then hash
  else (hash ^^^ foldCase b) * 16777619 % 2 ^ 32

/-- `FNV1AHash` from `pkg/obf/obf.go`: offset basis 2166136261. -/
def FNV1AHash (buffer : List Nat) : Nat :=
  buffer.foldl fnv1aStep 2166136261

/-- The accumulator update common to the reference DBJ2 definitions:
`acc = ((acc << 5) + acc) + b` with 32-bit wraparound, applied to an
already normalized byte. -/
def dbj2Accum (hash b : Nat) : Nat :=
  ((hash * 2 ^ 5 % 2 ^ 32 + hash) % 2 ^ 32 + b) % 2 ^ 32

/-- Normalization step as the spec words it: drop zero bytes, fold ASCII
lowercase letters (and only ASCII lowercase letters, 0x61–0x7A) to
uppercase, leave every other nonzero byte unchanged. -/
def normalizeSpec (b : Nat) : Option Nat :=
  if b = 0 then none
  else some (if 0x61 ≤ b ∧ b ≤ 0x7A then b - 0x20 else b)

/-- Reference DBJ2 built from the spec wording: normalize per
`normalizeSpec`, then fold `dbj2Accum` from seed 5381. -/
def DBJ2HashSpecRef (buffer : List Nat) : Nat :=
  (buffer.filterMap normalizeSpec).foldl dbj2Accum 5381

/-- Normalization as the code actually behaves: drop zero bytes, subtract
0x20 from every byte that is at least 0x61 (not only lowercase letters). -/
def normalizeAmended (b : Nat) : Option Nat :=
  if b = 0 then none
  else some (if 0x61 ≤ b then b - 0x20 else b)

/-- Reference DBJ2 with the amended normalization. -/
def DBJ2HashAmendedRef (buffer : List Nat) : Nat :=
  (buffer.filterMap normalizeAmended).foldl dbj2Accum 5381

/-- The spec normalization at the public interface: uppercase the ASCII
lowercase letters, leave everything else alone. Two inputs related by a
change of ASCII letter case have the same image under `asciiUpper`. -/
def asciiUpper (b : Nat) : Nat :=
  if 0x61 ≤ b ∧ b ≤ 0x7A then b - 0x20 else b

lemma foldl_dbj2_eq_filterMap (l : List Nat) : ∀ a : Nat,
    l.foldl dbj2Step a = (l.filterMap normalizeAmended).foldl dbj2Accum a := by
  induction l with
  | nil => intro a; rfl
  | cons b t ih =>
    intro a
    by_cases hb : b = 0
    · subst hb
      simpa [dbj2Step, normalizeAmended] using ih a
    · simp only [List.foldl_cons, List.filterMap_cons, normalizeAmended, if_neg hb,
        dbj2Step, dbj2Accum, foldCase]
      exact ih _

/-- Claim C1 (counterexample): `DBJ2Hash` does not agree with the reference
definition built from the spec wording (fold only ASCII lowercase letters):
they differ already on the one-byte input `0x7B`. -/
theorem dbj2_spec_fold_counterexample :
    DBJ2Hash [0x7B] ≠ DBJ2HashSpecRef [0x7B] := by decide

/-- Claim C1 (amended): `DBJ2Hash` equals the reference definition that
starts the accumulator at 5381, iterates the bytes in order, skips zero
bytes, subtracts 0x20 from every nonzero byte that is at least 0x61 (not
only ASCII lowercase letters), and updates
`acc = ((acc << 5) + acc) + byte` with 32-bit wraparound. -/
theorem dbj2_matches_amended_reference (buffer : List Nat) :
    DBJ2Hash buffer = DBJ2HashAmendedRef buffer :=
  foldl_dbj2_eq_filterMap buffer 5381

/-- Claim C3 (counterexample): replacing a byte `b ≥ 0x61` by `b - 0x20`
does not always preserve the hash.  For `b = 0x81` the replacement byte
`0x61` is itself folded again, so the hashes differ, under both
`DBJ2Hash` and `FNV1AHash`. -/
theorem fold_substitution_counterexample :
    DBJ2Hash [0x81] ≠ DBJ2Hash [0x61] ∧
    FNV1AHash [0x81] ≠ FNV1AHash [0x61] := by
  constructor
  · decide
  · decide

/-- Claim C3 (amended): the pre-hash fold applies to every nonzero byte
`b ≥ 0x61`, not only ASCII lowercase letters; for every byte `b` with
`0x61 ≤ b ≤ 0x80` (so the replacement `b - 0x20` falls below 0x61 and is
not folded again), hashing any input containing `b` yields the same
identifier as hashing the same input with `b` replaced by `b - 0x20`, in
both `DBJ2Hash` and `FNV1AHash`. -/
theorem fold_substitution_amended (pre suf : List Nat) (b : Nat)
    (h1 : 0x61 ≤ b) (h2 : b ≤ 0x80) :
    DBJ2Hash (pre ++ b :: suf) = DBJ2Hash (pre ++ (b - 0x20) :: suf) ∧
    FNV1AHash (pre ++ b :: suf) = FNV1AHash (pre ++ (b - 0x20) :: suf) := by
  have hfold : foldCase (b - 0x20) = foldCase b := by
    unfold foldCase
    rw [if_pos h1, if_neg (by omega)]
  have hb0 : ¬ b = 0 := by omega
  have hb20 : ¬ b - 0x20 = 0 := by omega
  constructor
  · unfold DBJ2Hash
    rw [List.foldl_append, List.foldl_append, List.foldl_cons, List.foldl_cons]
    unfold dbj2Step
    rw [if_neg hb0, if_neg hb20, hfold]
  · unfold FNV1AHash
    rw [List.foldl_append, List.foldl_append, List.foldl_cons, List.foldl_cons]
    unfold fnv1aStep
    rw [if_neg hb0, if_neg hb20, hfold]

/-- Witness for claim C3 (amended) at `pre = []`, `suf = []`, `b = 0x7B`:
the identifier of the string "\x7b" equals that of "[". -/
theorem fold_substitution_amended_witness :
    0x61 ≤ 0x7B ∧ 0x7B ≤ 0x80 ∧
    (DBJ2Hash ([] ++ 0x7B :: []) = DBJ2Hash ([] ++ (0x7B - 0x20) :: []) ∧
     FNV1AHash ([] ++ 0x7B :: []) = FNV1AHash ([] ++ (0x7B - 0x20) :: [])) :=
  ⟨by decide, by decide, fold_substitution_amended [] [] 0x7B (by decide) (by decide)⟩

lemma dbj2Step_asciiUpper (a b : Nat) : dbj2Step a (asciiUpper b) = dbj2Step a b := by
  by_cases hlo : 0x61 ≤ b ∧ b ≤ 0x7A
  · have h1 : asciiUpper b = b - 0x20 := by
      unfold asciiUpper
      rw [if_pos hlo]
    have h2 : foldCase (b - 0x20) = foldCase b := by
      unfold foldCase
      rw [if_neg (show ¬ 0x61 ≤ b - 0x20 by omega), if_pos hlo.1]
    unfold dbj2Step
    rw [h1, if_neg (show ¬ b - 0x20 = 0 by omega), if_neg (show ¬ b = 0 by omega), h2]
  · have h1 : asciiUpper b = b := by
      unfold asciiUpper
      rw [if_neg hlo]
    rw [h1]

lemma foldl_dbj2_asciiUpper (l : List Nat) : ∀ a : Nat,
    l.foldl (fun a b => dbj2Step a (asciiUpper b)) a = l.foldl dbj2Step a := by
  intro a
  simp only [dbj2Step_asciiUpper]

lemma dbj2_map_asciiUpper (l : List Nat) : DBJ2Hash (l.map asciiUpper) = DBJ2Hash l := by
  unfold DBJ2Hash
  rw [List.foldl_map]
  exact foldl_dbj2_asciiUpper l 5381

/-- Claim C8: the default hash is invariant under the spec normalization:
any two byte sequences related by changes of ASCII letter case (equal
images under `asciiUpper`) hash identically, and inserting or removing a
zero byte anywhere leaves the identifier unchanged. -/
theorem dbj2_normalization_invariance :
    (∀ l1 l2 : List Nat, l1.map asciiUpper = l2.map asciiUpper →
      DBJ2Hash l1 = DBJ2Hash l2) ∧
    (∀ pre suf : List Nat, DBJ2Hash (pre ++ 0 :: suf) = DBJ2Hash (pre ++ suf)) := by
  constructor
  · intro l1 l2 hmap
    rw [← dbj2_map_asciiUpper l1, ← dbj2_map_asciiUpper l2, hmap]
  · intro pre suf
    unfold DBJ2Hash
    rw [List.foldl_append, List.foldl_append, List.foldl_cons]
    rfl

/-- Witness for claim C8: hash("Abc") = hash("ABC") and
hash("a\x00b") = hash("ab"). -/
theorem dbj2_normalization_invariance_witness :
    DBJ2Hash [0x41, 0x62, 0x63] = DBJ2Hash [0x41, 0x42, 0x43] ∧
    DBJ2Hash ([0x61] ++ 0 :: [0x62]) = DBJ2Hash ([0x61] ++ [0x62]) :=
  ⟨dbj2_normalization_invariance.1 [0x41, 0x62, 0x63] [0x41, 0x42, 0x43] (by decide),
   dbj2_normalization_invariance.2 [0x61] [0x62]⟩

/-! ## The process-wide maps of pkg/obf

The Go maps `HashCache : map[string]uint32` and
`collisionDetector : map[uint32]string` are modelled as association lists
whose keys stay pairwise distinct.  `mapGet` is map lookup, `mapSet` is
`m[k] = v` (replace the entry for `k` if present, otherwise append). -/

/-- Lookup in an association list (Go map read `m[k]`). -/
def mapGet {α β : Type} [DecidableEq α] : List (α × β) → α → Option β
  | [], _ => none
  | p :: t, k => if k = p.1 then some p.2 else mapGet t k

/-- Update in an association list (Go map write `m[k] = v`). -/
def mapSet {α β : Type} [DecidableEq α] : List (α × β) → α → β → List (α × β)
  | [], k, v => [(k, v)]
  | p :: t, k, v => if k = p.1 then (k, v) :: t else p :: mapSet t k v

/-- The mutable package state of `pkg/obf`: the hash cache
(`HashCache`) and the collision registry (`collisionDetector`). -/
structure ObfState where
  hashCache : List (Str × Nat)
  collisionDetector : List (Nat × Str)
  deriving DecidableEq

/-- Both maps start empty at process start. -/
def emptyObfState : ObfState :=
  ⟨[], []⟩

/-- `detectHashCollision` from `pkg/obf/obf.go`.  Returns the new state
and whether the non-fatal collision diagnostic was emitted: if the
registry already has an entry for `hash`, the state is unchanged and the
diagnostic fires exactly when the recorded string differs from
`newString`; otherwise `newString` is registered as canonical for `hash`
and nothing is logged. -/
def detectHashCollision (st : ObfState) (hash : Nat) (newString : Str) :
    ObfState × Bool :=
  match mapGet st.collisionDetector hash with
  | some existingString => (st, decide (existingString ≠ newString))
  | none =>
      ({st with collisionDetector := mapSet st.collisionDetector hash newString},
       false)

/-- `GetHash` from `pkg/obf/obf.go`, with the state passed explicitly.
Returns the identifier, the new state, and whether a collision
diagnostic was emitted during the call.  On a cache hit the cached value
is returned unchanged; on a miss the value is computed with
`DBJ2HashStr`, stored, and collision detection runs. -/
def getHash (st : ObfState) (s : Str) : Nat × ObfState × Bool :=
  match mapGet st.hashCache s with
  | some hash => (hash, st, false)
  | none =>
      let hash := DBJ2HashStr s
      let st1 : ObfState := {st with hashCache := mapSet st.hashCache s hash}
      let r := detectHashCollision st1 hash s
      (hash, r.1, r.2)

/-- `ClearHashCache` from `pkg/obf/obf.go`: both maps are replaced by
fresh empty maps. -/
def clearHashCache (_ : ObfState) : ObfState :=
  emptyObfState

/-- The byte string "fnv1a". -/
def fnv1aName : Str :=
  [0x66, 0x6E, 0x76, 0x31, 0x61]

/-- The byte string "dbj2". -/
def dbj2Name : Str :=
  [0x64, 0x62, 0x6A, 0x32]

/-- `GetHashWithAlgorithm` from `pkg/obf/obf.go`: the switch selects
FNV-1a for "fnv1a", while "dbj2" falls through to the default case, so
every other name computes `DBJ2HashStr`.  The function touches neither
map. -/
def getHashWithAlgorithm (s algorithm : Str) : Nat :=
  if algorithm = fnv1aName then FNV1AHash s
  else DBJ2HashStr s

/-- `GetHashWithAlgorithm` as a state transition: it only reads its
arguments, so the package state goes through unchanged. -/
def getHashWithAlgorithmS (st : ObfState) (s algorithm : Str) : Nat × ObfState :=
  (getHashWithAlgorithm s algorithm, st)

/-- `GetHashCacheStats` from `pkg/obf/obf.go`, as the triple
`(total_entries, unique_hashes, collisions)`; the map also carries a
constant `cache_hit_ratio` of `0.0`, omitted here.  `collisions` is
`totalEntries - uniqueHashes` clamped to zero when the difference would
be negative. -/
def getHashCacheStats (st : ObfState) : Nat × Nat × Nat :=
  let uniqueHashes := st.collisionDetector.length
  let totalEntries := st.hashCache.length
  let collisions := if totalEntries > uniqueHashes then totalEntries - uniqueHashes else 0
  (totalEntries, uniqueHashes, collisions)

/-- The package states reachable from process start by any sequence of
`GetHash`, `GetHashWithAlgorithm`, and `ClearHashCache` calls. -/
inductive ReachableObf : ObfState → Prop
  | empty : ReachableObf emptyObfState
  | stepGetHash (st : ObfState) (s : Str) :
      ReachableObf st → ReachableObf (getHash st s).2.1
  | stepWithAlgorithm (st : ObfState) (s algorithm : Str) :
      ReachableObf st → ReachableObf (getHashWithAlgorithmS st s algorithm).2
  | stepClear (st : ObfState) :
      ReachableObf st → ReachableObf (clearHashCache st)

/-- Claim C7: `GetHashWithAlgorithm` returns `FNV1AHash` for "fnv1a",
`DBJ2HashStr` for "dbj2", and for every other algorithm name the same
value as for "dbj2" (silent fallback); as a state transition it leaves
the package state untouched. -/
theorem getHashWithAlgorithm_selects (s algorithm : Str) :
    getHashWithAlgorithm s fnv1aName = FNV1AHash s ∧
    getHashWithAlgorithm s dbj2Name = DBJ2HashStr s ∧
    (algorithm ≠ fnv1aName → algorithm ≠ dbj2Name →
      getHashWithAlgorithm s algorithm = getHashWithAlgorithm s dbj2Name) ∧
    (∀ st : ObfState, (getHashWithAlgorithmS st s algorithm).2 = st) := by
  refine ⟨?_, ?_, ?_, ?_⟩
  · unfold getHashWithAlgorithm
    rw [if_pos rfl]
  · unfold getHashWithAlgorithm
    rw [if_neg (by decide)]
  · intro h1 _
    unfold getHashWithAlgorithm
    rw [if_neg h1, if_neg (by decide)]
  · intro st
    rfl

/-- Witness for claim C7 at `s` = "A" and the unrecognized algorithm
name "x". -/
theorem getHashWithAlgorithm_selects_witness :
    getHashWithAlgorithm [0x41] fnv1aName = FNV1AHash [0x41] ∧
    getHashWithAlgorithm [0x41] dbj2Name = DBJ2HashStr [0x41] ∧
    getHashWithAlgorithm [0x41] [0x78] = getHashWithAlgorithm [0x41] dbj2Name ∧
    (getHashWithAlgorithmS emptyObfState [0x41] [0x78]).2 = emptyObfState := by
  have h := getHashWithAlgorithm_selects [0x41] [0x78]
  exact ⟨h.1, h.2.1, h.2.2.1 (by decide) (by decide), h.2.2.2 emptyObfState⟩

lemma mapGet_none_forall {α β : Type} [DecidableEq α] {l : List (α × β)} {k : α}
    (h : mapGet l k = none) : ∀ p ∈ l, p.1 ≠ k := by
  induction l with
  | nil =>
    intro p hp
    cases hp
  | cons q t ih =>
    intro p hp
    unfold mapGet at h
    by_cases hk : k = q.1
    · rw [if_pos hk] at h
      cases h
    · rw [if_neg hk] at h
      rcases List.mem_cons.mp hp with rfl | hp2
      · exact fun he => hk he.symm
      · exact ih h p hp2

lemma mapGet_none_of_forall {α β : Type} [DecidableEq α] {l : List (α × β)} {k : α}
    (h : ∀ p ∈ l, p.1 ≠ k) : mapGet l k = none := by
  induction l with
  | nil => rfl
  | cons q t ih =>
    unfold mapGet
    rw [if_neg fun he => h q (List.mem_cons_self q t) he.symm]
    exact ih fun p hp => h p (List.mem_cons_of_mem q hp)

lemma mapGet_some_mem {α β : Type} [DecidableEq α] {l : List (α × β)} {k : α} {v : β}
    (h : mapGet l k = some v) : (k, v) ∈ l := by
  induction l with
  | nil => cases h
  | cons q t ih =>
    unfold mapGet at h
    by_cases hk : k = q.1
    · rw [if_pos hk] at h
      obtain ⟨kq, vq⟩ := q
      simp only at hk h
      injection h with hv
      subst hk
      subst hv
      exact List.mem_cons_self _ _
    · rw [if_neg hk] at h
      exact List.mem_cons_of_mem _ (ih h)

lemma mapSet_fresh {α β : Type} [DecidableEq α] {l : List (α × β)} {k : α} (v : β)
    (h : ∀ p ∈ l, p.1 ≠ k) : mapSet l k v = l ++ [(k, v)] := by
  induction l with
  | nil => rfl
  | cons q t ih =>
    unfold mapSet
    rw [if_neg fun he => h q (List.mem_cons_self q t) he.symm,
      ih fun p hp => h p (List.mem_cons_of_mem q hp), List.cons_append]

lemma mapGet_mapSet_self {α β : Type} [DecidableEq α] (l : List (α × β)) (k : α) (v : β) :
    mapGet (mapSet l k v) k = some v := by
  induction l with
  | nil =>
    unfold mapSet mapGet
    rw [if_pos rfl]
  | cons q t ih =>
    unfold mapSet
    by_cases hk : k = q.1
    · rw [if_pos hk]
      unfold mapGet
      rw [if_pos rfl]
    · rw [if_neg hk]
      unfold mapGet
      rw [if_neg hk]
      exact ih

/-- `detectHashCollision` never touches the hash cache. -/
lemma detect_hashCache (st : ObfState) (hash : Nat) (s : Str) :
    (detectHashCollision st hash s).1.hashCache = st.hashCache := by
  unfold detectHashCollision
  cases mapGet st.collisionDetector hash with
  | some e => rfl
  | none => rfl

/-- The internal consistency invariant of the `pkg/obf` package state:
every cache entry stores the recomputed default hash of its key, the keys
of both maps are pairwise distinct, and every registry entry records a
string that is present in the cache and hashes to the registry key. -/
def StateInv (st : ObfState) : Prop :=
  (∀ p ∈ st.hashCache, p.2 = DBJ2HashStr p.1) ∧
  (st.hashCache.map Prod.fst).Nodup ∧
  (st.collisionDetector.map Prod.fst).Nodup ∧
  (∀ q ∈ st.collisionDetector, DBJ2HashStr q.2 = q.1 ∧ ∃ h, (q.2, h) ∈ st.hashCache)

lemma stateInv_empty : StateInv emptyObfState := by
  refine ⟨?_, ?_, ?_, ?_⟩ <;> simp [emptyObfState]

lemma stateInv_getHash (st : ObfState) (s : Str) (inv : StateInv st) :
    StateInv (getHash st s).2.1 := by
  obtain ⟨hc, hnd, rnd, hreg⟩ := inv
  cases hget : mapGet st.hashCache s with
  | some v =>
    simpa [getHash, hget] using ⟨hc, hnd, rnd, hreg⟩
  | none =>
    have hfresh : ∀ p ∈ st.hashCache, p.1 ≠ s := mapGet_none_forall hget
    have hset : mapSet st.hashCache s (DBJ2HashStr s)
        = st.hashCache ++ [(s, DBJ2HashStr s)] :=
      mapSet_fresh _ hfresh
    have cacheCorrect : ∀ p ∈ st.hashCache ++ [(s, DBJ2HashStr s)], p.2 = DBJ2HashStr p.1 := by
      intro p hp
      rcases List.mem_append.mp hp with hp2 | hp2
      · exact hc p hp2
      · rcases List.mem_singleton.mp hp2 with rfl
        rfl
    have cacheNodup : ((st.hashCache ++ [(s, DBJ2HashStr s)]).map Prod.fst).Nodup := by
      rw [List.map_append, List.nodup_append]
      refine ⟨hnd, List.nodup_singleton _, ?_⟩
      intro a ha hb
      rcases List.mem_map.mp ha with ⟨p, hp, rfl⟩
      have hb2 : p.1 = s := by simpa using hb
      exact hfresh p hp hb2
    cases hreg2 : mapGet st.collisionDetector (DBJ2HashStr s) with
    | some e =>
      refine ⟨?_, ?_, ?_, ?_⟩ <;>
        simp only [getHash, hget, detectHashCollision, hreg2, hset]
      · exact cacheCorrect
      · exact cacheNodup
      · exact rnd
      · intro q hq
        obtain ⟨hh, w, hw⟩ := hreg q hq
        exact ⟨hh, w, List.mem_append_left _ hw⟩
    | none =>
      have rfresh : ∀ q ∈ st.collisionDetector, q.1 ≠ DBJ2HashStr s :=
        mapGet_none_forall hreg2
      have rset : mapSet st.collisionDetector (DBJ2HashStr s) s
          = st.collisionDetector ++ [(DBJ2HashStr s, s)] :=
        mapSet_fresh _ rfresh
      refine ⟨?_, ?_, ?_, ?_⟩ <;>
        simp only [getHash, hget, detectHashCollision, hreg2, hset, rset]
      · exact cacheCorrect
      · exact cacheNodup
      · rw [List.map_append, List.nodup_append]
        refine ⟨rnd, List.nodup_singleton _, ?_⟩
        intro a ha hb
        rcases List.mem_map.mp ha with ⟨q, hq, rfl⟩
        have hb2 : q.1 = DBJ2HashStr s := by simpa using hb
        exact rfresh q hq hb2
      · intro q hq
        rcases List.mem_append.mp hq with hq2 | hq2
        · obtain ⟨hh, w, hw⟩ := hreg q hq2
          exact ⟨hh, w, List.mem_append_left _ hw⟩
        · rcases List.mem_singleton.mp hq2 with rfl
          exact ⟨rfl, DBJ2HashStr s,
            List.mem_append_right _ (List.mem_singleton.mpr rfl)⟩

lemma reachable_stateInv {st : ObfState} (h : ReachableObf st) : StateInv st := by
  induction h with
  | empty => exact stateInv_empty
  | stepGetHash st s _ ih => exact stateInv_getHash st s ih
  | stepWithAlgorithm st s algorithm _ ih => exact ih
  | stepClear st _ _ => exact stateInv_empty

/-- In any state satisfying the invariant, `GetHash` returns the pure
default hash of its argument. -/
lemma getHash_result (st : ObfState) (s : Str) (inv : StateInv st) :
    (getHash st s).1 = DBJ2HashStr s := by
  cases hget : mapGet st.hashCache s with
  | some v =>
    have hv : v = DBJ2HashStr s := inv.1 (s, v) (mapGet_some_mem hget)
    simpa [getHash, hget] using hv
  | none => simp [getHash, hget]

/-- After any `GetHash` call the queried string is cached with the
returned value. -/
lemma getHash_cached (st : ObfState) (s : Str) :
    mapGet (getHash st s).2.1.hashCache s = some (getHash st s).1 := by
  cases hget : mapGet st.hashCache s with
  | some v => simp [getHash, hget]
  | none =>
    simp only [getHash, hget, detect_hashCache]
    exact mapGet_mapSet_self _ _ _

/-- A cache hit returns the cached value, leaves the state unchanged, and
emits no diagnostic. -/
lemma getHash_hit (st : ObfState) (s : Str) (v : Nat)
    (h : mapGet st.hashCache s = some v) : getHash st s = (v, st, false) := by
  simp [getHash, h]

/-- Claim C4: `GetHash` is a transparent memoization of the default hash:
in every reachable state it returns exactly `DBJ2HashStr s`, every cached
entry agrees with recomputation, and a second `GetHash` of the same
string returns the identical value without changing the state further. -/
theorem getHash_transparent (st : ObfState) (s : Str) (h : ReachableObf st) :
    (getHash st s).1 = DBJ2HashStr s ∧
    (∀ p ∈ st.hashCache, p.2 = DBJ2HashStr p.1) ∧
    (getHash (getHash st s).2.1 s).1 = (getHash st s).1 ∧
    (getHash (getHash st s).2.1 s).2.1 = (getHash st s).2.1 := by
  have inv := reachable_stateInv h
  have h1 := getHash_result st s inv
  have h3 := getHash_hit _ s _ (getHash_cached st s)
  exact ⟨h1, inv.1, by rw [h3], by rw [h3]⟩

/-- Witness for claim C4 at the empty state and the string "A". -/
theorem getHash_transparent_witness :
    (getHash emptyObfState [0x41]).1 = DBJ2HashStr [0x41] ∧
    (∀ p ∈ emptyObfState.hashCache, p.2 = DBJ2HashStr p.1) ∧
    (getHash (getHash emptyObfState [0x41]).2.1 [0x41]).1
      = (getHash emptyObfState [0x41]).1 ∧
    (getHash (getHash emptyObfState [0x41]).2.1 [0x41]).2.1
      = (getHash emptyObfState [0x41]).2.1 :=
  getHash_transparent emptyObfState [0x41] ReachableObf.empty

/-- Claim C5: the collision registry keeps the first string observed for
each identifier.  If the registry already has an entry, a later
`detectHashCollision` leaves the registry unchanged and emits the
non-fatal diagnostic exactly when the new string differs; if no entry
exists the new string is registered as canonical with no diagnostic; and
two strings with the same default hash resolve to the same identifier. -/
theorem collision_registry_first_wins (st : ObfState) (idv : Nat) (s first : Str) :
    (mapGet st.collisionDetector idv = some first →
      (detectHashCollision st idv s).1 = st ∧
      mapGet (detectHashCollision st idv s).1.collisionDetector idv = some first ∧
      ((detectHashCollision st idv s).2 = true ↔ first ≠ s)) ∧
    (mapGet st.collisionDetector idv = none →
      mapGet (detectHashCollision st idv s).1.collisionDetector idv = some s ∧
      (detectHashCollision st idv s).2 = false) ∧
    (∀ t : ObfState, ReachableObf t → DBJ2HashStr s = DBJ2HashStr first →
      (getHash t s).1 = (getHash (getHash t s).2.1 first).1) := by
  refine ⟨?_, ?_, ?_⟩
  · intro h
    refine ⟨?_, ?_, ?_⟩ <;> simp [detectHashCollision, h]
  · intro h
    refine ⟨?_, ?_⟩ <;> simp [detectHashCollision, h, mapGet_mapSet_self]
  · intro t ht heq
    have h1 := getHash_result t s (reachable_stateInv ht)
    have h2 := getHash_result (getHash t s).2.1 first
      (reachable_stateInv (ReachableObf.stepGetHash t s ht))
    rw [h1, h2, heq]

/-- Witness for claim C5: the registry already maps 177638 (the hash of
"A") to "A"; resolving the colliding string "A\x00" leaves the registry
entry intact, fires the diagnostic, and both strings resolve to the same
identifier starting from the empty state. -/
theorem collision_registry_first_wins_witness :
    ((detectHashCollision ⟨[], [(177638, [0x41])]⟩ 177638 [0x41, 0]).1
        = ⟨[], [(177638, [0x41])]⟩ ∧
     mapGet (detectHashCollision ⟨[], [(177638, [0x41])]⟩ 177638
        [0x41, 0]).1.collisionDetector 177638 = some [0x41] ∧
     ((detectHashCollision ⟨[], [(177638, [0x41])]⟩ 177638 [0x41, 0]).2 = true ↔
        ([0x41] : Str) ≠ [0x41, 0])) ∧
    (getHash emptyObfState [0x41, 0]).1
      = (getHash (getHash emptyObfState [0x41, 0]).2.1 [0x41]).1 :=
  ⟨(collision_registry_first_wins ⟨[], [(177638, [0x41])]⟩ 177638 [0x41, 0] [0x41]).1
      (by rfl),
   (collision_registry_first_wins ⟨[], [(177638, [0x41])]⟩ 177638 [0x41, 0] [0x41]).2.2
      emptyObfState ReachableObf.empty (by decide)⟩

/-- Resolve a list of strings in order through `GetHash`, starting from
a given state. -/
def resolveAll (st : ObfState) (names : List Str) : ObfState :=
  names.foldl (fun st s => (getHash st s).2.1) st

/-- Resolving pairwise distinct, pairwise non-colliding strings fills the
cache and the registry in insertion order.  The state is tracked through
the prefix `pre` of strings already resolved. -/
lemma resolveAll_distinct (names : List Str) : ∀ pre : List Str,
    (pre ++ names).Nodup → ((pre ++ names).map DBJ2HashStr).Nodup →
    resolveAll
      ⟨pre.map (fun a => (a, DBJ2HashStr a)), pre.map (fun a => (DBJ2HashStr a, a))⟩
      names =
    ⟨(pre ++ names).map (fun a => (a, DBJ2HashStr a)),
     (pre ++ names).map (fun a => (DBJ2HashStr a, a))⟩ := by
  induction names with
  | nil =>
    intro pre h1 h2
    simp [resolveAll]
  | cons s t ih =>
    intro pre h1 h2
    have hsplit := List.nodup_append.mp h1
    have hs_notin : s ∉ pre := fun hin =>
      hsplit.2.2 hin (List.mem_cons_self s t)
    have h2m : (pre.map DBJ2HashStr ++ (s :: t).map DBJ2HashStr).Nodup := by
      rw [← List.map_append]
      exact h2
    have hhsplit := List.nodup_append.mp h2m
    have hhs_notin : DBJ2HashStr s ∉ pre.map DBJ2HashStr := fun hin =>
      hhsplit.2.2 hin (by
        simp only [List.map_cons]
        exact List.mem_cons_self _ _)
    have hcget : mapGet (pre.map (fun a => (a, DBJ2HashStr a))) s = none := by
      apply mapGet_none_of_forall
      intro p hp
      rcases List.mem_map.mp hp with ⟨a, ha, rfl⟩
      exact fun he => hs_notin (he ▸ ha)
    have hrget : mapGet (pre.map (fun a => (DBJ2HashStr a, a))) (DBJ2HashStr s)
        = none := by
      apply mapGet_none_of_forall
      intro q hq
      rcases List.mem_map.mp hq with ⟨a, ha, rfl⟩
      exact fun he => hhs_notin (he ▸ List.mem_map_of_mem DBJ2HashStr ha)
    have hcset : mapSet (pre.map (fun a => (a, DBJ2HashStr a))) s (DBJ2HashStr s)
        = (pre ++ [s]).map (fun a => (a, DBJ2HashStr a)) := by
      rw [mapSet_fresh _ (mapGet_none_forall hcget), List.map_append]
      rfl
    have hrset : mapSet (pre.map (fun a => (DBJ2HashStr a, a))) (DBJ2HashStr s) s
        = (pre ++ [s]).map (fun a => (DBJ2HashStr a, a)) := by
      rw [mapSet_fresh _ (mapGet_none_forall hrget), List.map_append]
      rfl
    have hstep :
        resolveAll
          ⟨pre.map (fun a => (a, DBJ2HashStr a)), pre.map (fun a => (DBJ2HashStr a, a))⟩
          (s :: t) =
        resolveAll
          ⟨(pre ++ [s]).map (fun a => (a, DBJ2HashStr a)),
           (pre ++ [s]).map (fun a => (DBJ2HashStr a, a))⟩
          t := by
      simp only [resolveAll, List.foldl_cons, getHash, hcget, detectHashCollision,
        hrget, hcset, hrset]
    have h1s : (pre ++ [s] ++ t).Nodup := by
      rw [← List.append_cons]
      exact h1
    have h2s : ((pre ++ [s] ++ t).map DBJ2HashStr).Nodup := by
      rw [← List.append_cons]
      exact h2
    have ihs := ih (pre ++ [s]) h1s h2s
    rw [hstep, ihs, ← List.append_cons]

/-- Claim C6: resolving `k` pairwise distinct, pairwise non-colliding
strings from the empty state yields statistics
`(total_entries, unique_hashes, collisions) = (k, k, 0)`; after
`ClearHashCache` all three are zero; a subsequent resolve of any string
re-inserts, raising the statistics to `(1, 1, 0)`. -/
theorem cache_stats_accurate (names : List Str)
    (h1 : names.Nodup) (h2 : (names.map DBJ2HashStr).Nodup) :
    getHashCacheStats (resolveAll emptyObfState names)
      = (names.length, names.length, 0) ∧
    getHashCacheStats (clearHashCache (resolveAll emptyObfState names)) = (0, 0, 0) ∧
    (∀ s : Str, getHashCacheStats
      ((getHash (clearHashCache (resolveAll emptyObfState names)) s).2.1)
      = (1, 1, 0)) := by
  have he : emptyObfState =
      ⟨([] : List Str).map (fun a => (a, DBJ2HashStr a)),
       ([] : List Str).map (fun a => (DBJ2HashStr a, a))⟩ := rfl
  have hr := resolveAll_distinct names [] (by simpa) (by simpa)
  refine ⟨?_, ?_, ?_⟩
  · rw [he, hr]
    simp [getHashCacheStats]
  · rfl
  · intro s
    simp [clearHashCache, getHash, emptyObfState, mapGet, mapSet,
      detectHashCollision, getHashCacheStats]

/-- Witness for claim C6 with the two distinct, non-colliding strings
"A" and "B". -/
theorem cache_stats_accurate_witness :
    ([[0x41], [0x42]] : List Str).Nodup ∧
    (([[0x41], [0x42]] : List Str).map DBJ2HashStr).Nodup ∧
    getHashCacheStats (resolveAll emptyObfState [[0x41], [0x42]]) = (2, 2, 0) ∧
    getHashCacheStats (clearHashCache (resolveAll emptyObfState [[0x41], [0x42]]))
      = (0, 0, 0) ∧
    getHashCacheStats
      ((getHash (clearHashCache (resolveAll emptyObfState [[0x41], [0x42]])) [0x43]).2.1)
      = (1, 1, 0) := by
  have h := cache_stats_accurate [[0x41], [0x42]] (by decide) (by decide)
  exact ⟨by decide, by decide, h.1, h.2.1, h.2.2 [0x43]⟩

/-- Claim C10: in every reachable state each registry key is the default
hash of a cached string, so the registry never outgrows the cache; the
collisions statistic equals `total_entries - unique_hashes` exactly, and
the clamping branch of `GetHashCacheStats` is only ever reached with the
two counts equal. -/
theorem registry_bounded_stats (st : ObfState) (h : ReachableObf st) :
    (∀ q ∈ st.collisionDetector, ∃ p ∈ st.hashCache, DBJ2HashStr p.1 = q.1) ∧
    st.collisionDetector.length ≤ st.hashCache.length ∧
    (getHashCacheStats st).2.2 = st.hashCache.length - st.collisionDetector.length ∧
    (st.hashCache.length ≤ st.collisionDetector.length →
      st.hashCache.length = st.collisionDetector.length) := by
  obtain ⟨hc, hnd, rnd, hreg⟩ := reachable_stateInv h
  have hmem : ∀ q ∈ st.collisionDetector, ∃ p ∈ st.hashCache, DBJ2HashStr p.1 = q.1 := by
    intro q hq
    obtain ⟨hh, w, hw⟩ := hreg q hq
    exact ⟨(q.2, w), hw, hh⟩
  have hsnd_nodup : (st.collisionDetector.map Prod.snd).Nodup := by
    have hmapeq : st.collisionDetector.map Prod.fst
        = (st.collisionDetector.map Prod.snd).map DBJ2HashStr := by
      rw [List.map_map]
      exact List.map_congr_left fun q hq => ((hreg q hq).1).symm
    rw [hmapeq] at rnd
    exact rnd.of_map _
  have hsub : st.collisionDetector.map Prod.snd ⊆ st.hashCache.map Prod.fst := by
    intro a ha
    rcases List.mem_map.mp ha with ⟨q, hq, rfl⟩
    obtain ⟨hh, w, hw⟩ := hreg q hq
    exact List.mem_map.mpr ⟨(q.2, w), hw, rfl⟩
  have hlen : st.collisionDetector.length ≤ st.hashCache.length := by
    have hle := (hsnd_nodup.subperm hsub).length_le
    simpa using hle
  refine ⟨hmem, hlen, ?_, fun hle => Nat.le_antisymm hle hlen⟩
  show (if st.hashCache.length > st.collisionDetector.length
      then st.hashCache.length - st.collisionDetector.length else 0)
    = st.hashCache.length - st.collisionDetector.length
  by_cases hgt : st.hashCache.length > st.collisionDetector.length
  · rw [if_pos hgt]
  · rw [if_neg hgt]
    omega

/-- Witness for claim C10 at the empty state. -/
theorem registry_bounded_stats_witness :
    (∀ q ∈ emptyObfState.collisionDetector,
      ∃ p ∈ emptyObfState.hashCache, DBJ2HashStr p.1 = q.1) ∧
    emptyObfState.collisionDetector.length ≤ emptyObfState.hashCache.length ∧
    (getHashCacheStats emptyObfState).2.2
      = emptyObfState.hashCache.length - emptyObfState.collisionDetector.length ∧
    (emptyObfState.hashCache.length ≤ emptyObfState.collisionDetector.length →
      emptyObfState.hashCache.length = emptyObfState.collisionDetector.length) :=
  registry_bounded_stats emptyObfState ReachableObf.empty

/-! ## The trampoline pkg/unhook/do_syscall.S

The registers touched by the routine are modelled as unbounded naturals
holding 64-bit values; memory is a function from byte addresses to the
quadword stored at that address, with all accesses 8-byte-stride relative
to `rsp`.  Addresses are plain naturals (the stack sits far from both
ends of the address space, so address arithmetic does not wrap).  The
`syscall` instruction is an oracle that deposits a result in `rax` and
clobbers `rcx`/`r11` (the hardware writes `rip`/`rflags` there); it does
not touch user memory or the other registers. -/

/-- Register file and memory at an instruction boundary. -/
structure MachineState where
  rax : Nat
  rcx : Nat
  rdx : Nat
  r8 : Nat
  r9 : Nat
  r10 : Nat
  r11 : Nat
  rsi : Nat
  rdi : Nat
  rsp : Nat
  mem : Nat → Nat

/-- Write one quadword. -/
def store (m : Nat → Nat) (a v : Nat) : Nat → Nat :=
  fun x => if x = a then v else m x

/-- `rep movsq` with direction flag clear: move `n` quadwords from
`[rsi]` to `[rdi]`, bumping both by 8 each step; `rcx` counts down to
zero. -/
def repMovsq : Nat → MachineState → MachineState
  | 0, s => {s with rcx := 0}
  | n + 1, s =>
      repMovsq n {s with mem := store s.mem s.rdi (s.mem s.rsi),
                         rsi := s.rsi + 8, rdi := s.rdi + 8, rcx := n}

/-- 64-bit subtraction with wraparound (operand already below `2 ^ 64`). -/
def sub64 (a b : Nat) : Nat :=
  (a + 2 ^ 64 - b) % 2 ^ 64

/-- Branch condition of `sub rcx, 4` followed by `jle`, expressed on the
value of `rcx` before the subtraction: the jump is taken exactly when
`ZF = 1` or `SF ≠ OF` afterwards, which for a 64-bit register means the
signed value of `rcx` was at most 4 — that is, `rcx ≤ 4` or `rcx` has its
top bit set. -/
def jleTaken (a : Nat) : Prop :=
  a % 2 ^ 64 ≤ 4 ∨ 2 ^ 63 ≤ a % 2 ^ 64

instance (a : Nat) : Decidable (jleTaken a) := by
  unfold jleTaken
  infer_instance

/-- `mov [rsp - 0x8], rsi` and `mov [rsp - 0x10], rdi`: save the two
scratch registers to private stack slots. -/
def saveRegs (s : MachineState) : MachineState :=
  {s with mem := store (store s.mem (s.rsp - 0x8) s.rsi) (s.rsp - 0x10) s.rdi}

/-- The six `mov` instructions that re-marshal the arguments into the
kernel convention: `eax := ecx` (syscall number, zero-extended),
`rcx := rdx` (argument count), `r10 := r8`, `rdx := r9`,
`r8 := [rsp + 0x28]`, `r9 := [rsp + 0x30]`.  Each right-hand side reads
the register or memory value before any of these writes, matching the
instruction order of the source. -/
def marshalRegs (s : MachineState) : MachineState :=
  {s with rax := s.rcx % 2 ^ 32,
          rcx := s.rdx,
          r10 := s.r8,
          rdx := s.r9,
          r8 := s.mem (s.rsp + 0x28),
          r9 := s.mem (s.rsp + 0x30)}

/-- `sub rcx, 4; jle skip; lea rsi, [rsp + 0x38]; lea rdi, [rsp + 0x28];
rep movsq`: spill the arguments beyond the fourth to the slots the
kernel convention reads from, or skip when the remaining count is not
positive. -/
def spillArgs (s : MachineState) : MachineState :=
  if jleTaken s.rcx then {s with rcx := sub64 s.rcx 4}
  else repMovsq (sub64 s.rcx 4)
    {s with rcx := sub64 s.rcx 4, rsi := s.rsp + 0x38, rdi := s.rsp + 0x28}

/-- The machine state at the `syscall` instruction. -/
def syscallEntry (s : MachineState) : MachineState :=
  spillArgs (marshalRegs (saveRegs s))

/-- The kernel as an oracle: given the state at the `syscall`
instruction it yields the result placed in `rax` and the values left in
the clobbered `rcx` and `r11`. -/
structure Kernel where
  result : MachineState → Nat
  ripOut : MachineState → Nat
  flagsOut : MachineState → Nat

/-- Effect of the `syscall` instruction. -/
def kernelStep (k : Kernel) (s : MachineState) : MachineState :=
  {s with rax := k.result s, rcx := k.ripOut s, r11 := k.flagsOut s}

/-- `mov rsi, [rsp - 0x8]` and `mov rdi, [rsp - 0x10]`: restore the two
saved registers just before `ret`. -/
def restoreRegs (s : MachineState) : MachineState :=
  {s with rsi := s.mem (s.rsp - 0x8), rdi := s.mem (s.rsp - 0x10)}

/-- `do_syscall` from entry to the `ret` instruction. -/
def do_syscall (k : Kernel) (s : MachineState) : MachineState :=
  restoreRegs (kernelStep k (syscallEntry s))

lemma repMovsq_rsp (n : Nat) : ∀ s : MachineState, (repMovsq n s).rsp = s.rsp := by
  induction n with
  | zero => intro s; rfl
  | succ m ih => intro s; exact ih _

lemma repMovsq_mem_lo (n : Nat) : ∀ (s : MachineState) (a : Nat), a < s.rdi →
    (repMovsq n s).mem a = s.mem a := by
  induction n with
  | zero => intro s a _; rfl
  | succ m ih =>
    intro s a ha
    have h1 := ih {s with mem := store s.mem s.rdi (s.mem s.rsi),
                          rsi := s.rsi + 8, rdi := s.rdi + 8, rcx := m} a
      (by show a < s.rdi + 8; omega)
    simp only [repMovsq]
    rw [h1]
    show store s.mem s.rdi (s.mem s.rsi) a = s.mem a
    unfold store
    rw [if_neg (by omega)]

lemma repMovsq_mem_hi (n : Nat) : ∀ (s : MachineState) (a : Nat), s.rdi + 8 * n ≤ a →
    (repMovsq n s).mem a = s.mem a := by
  induction n with
  | zero => intro s a _; rfl
  | succ m ih =>
    intro s a ha
    have h1 := ih {s with mem := store s.mem s.rdi (s.mem s.rsi),
                          rsi := s.rsi + 8, rdi := s.rdi + 8, rcx := m} a
      (by show s.rdi + 8 + 8 * m ≤ a; omega)
    simp only [repMovsq]
    rw [h1]
    show store s.mem s.rdi (s.mem s.rsi) a = s.mem a
    unfold store
    rw [if_neg (by omega)]

/-- The forward `rep movsq` copy with source 16 bytes above the
destination reads every source word before any write can reach it, so
each destination word receives the original source word. -/
lemma repMovsq_mem_copy (n : Nat) : ∀ s : MachineState, s.rdi + 16 = s.rsi →
    ∀ i < n, (repMovsq n s).mem (s.rdi + 8 * i) = s.mem (s.rsi + 8 * i) := by
  induction n with
  | zero =>
    intro s _ i hi
    exact absurd hi (Nat.not_lt_zero i)
  | succ m ih =>
    intro s hsep i hi
    simp only [repMovsq]
    cases i with
    | zero =>
      rw [repMovsq_mem_lo m _ _ (by show s.rdi + 8 * 0 < s.rdi + 8; omega)]
      show store s.mem s.rdi (s.mem s.rsi) (s.rdi + 8 * 0) = s.mem (s.rsi + 8 * 0)
      unfold store
      rw [if_pos (by omega)]
      congr 1
    | succ j =>
      have h2 := ih {s with mem := store s.mem s.rdi (s.mem s.rsi),
                            rsi := s.rsi + 8, rdi := s.rdi + 8, rcx := m}
        (by show s.rdi + 8 + 16 = s.rsi + 8; omega) j (by omega)
      have haddr : s.rdi + 8 + 8 * j = s.rdi + 8 * (j + 1) := by omega
      rw [haddr] at h2
      rw [h2]
      show store s.mem s.rdi (s.mem s.rsi) (s.rsi + 8 + 8 * j) = s.mem (s.rsi + 8 * (j + 1))
      unfold store
      rw [if_neg (by omega)]
      congr 1
      omega

lemma sub64_four (a : Nat) (h4 : 4 ≤ a) (h : a < 2 ^ 64) : sub64 a 4 = a - 4 := by
  unfold sub64
  have he : a + 2 ^ 64 - 4 = a - 4 + 2 ^ 64 := by omega
  rw [he, Nat.add_mod_right]
  exact Nat.mod_eq_of_lt (by omega)

lemma jleTaken_of (a : Nat) (h : a < 2 ^ 64) (hc : a ≤ 4 ∨ 2 ^ 63 ≤ a) : jleTaken a := by
  unfold jleTaken
  rw [Nat.mod_eq_of_lt h]
  exact hc

lemma not_jleTaken (a : Nat) (h4 : 4 < a) (hh : a < 2 ^ 63) : ¬ jleTaken a := by
  unfold jleTaken
  have h64 : a < 2 ^ 64 := by
    have : (2 : Nat) ^ 63 < 2 ^ 64 := by norm_num
    omega
  rw [Nat.mod_eq_of_lt h64]
  omega

/-- Behavior of `sub rcx, 4; jle; lea; lea; rep movsq` on an arbitrary
state: a signed-non-positive remaining count skips the copy altogether,
a positive one copies exactly that many words from `[rsp+0x38]` onward to
`[rsp+0x28]` onward, leaving all other memory untouched. -/
lemma spillArgs_spec (t : MachineState) (hcx : t.rcx < 2 ^ 64) :
    (t.rcx ≤ 4 ∨ 2 ^ 63 ≤ t.rcx → spillArgs t = {t with rcx := sub64 t.rcx 4}) ∧
    (4 < t.rcx → t.rcx < 2 ^ 63 →
      (∀ i < t.rcx - 4,
        (spillArgs t).mem (t.rsp + 0x28 + 8 * i) = t.mem (t.rsp + 0x38 + 8 * i)) ∧
      (∀ a : Nat, a < t.rsp + 0x28 ∨ t.rsp + 0x28 + 8 * (t.rcx - 4) ≤ a →
        (spillArgs t).mem a = t.mem a)) := by
  constructor
  · intro hc
    unfold spillArgs
    rw [if_pos (jleTaken_of t.rcx hcx hc)]
  · intro h4 h63
    have hnot : ¬ jleTaken t.rcx := not_jleTaken t.rcx h4 h63
    have hsub : sub64 t.rcx 4 = t.rcx - 4 := sub64_four t.rcx (by omega) hcx
    constructor
    · intro i hi
      unfold spillArgs
      rw [if_neg hnot, hsub]
      exact repMovsq_mem_copy (t.rcx - 4)
        {t with rcx := t.rcx - 4, rsi := t.rsp + 0x38, rdi := t.rsp + 0x28}
        (by show t.rsp + 0x28 + 16 = t.rsp + 0x38; omega) i hi
    · intro a hout
      unfold spillArgs
      rw [if_neg hnot, hsub]
      rcases hout with hlt | hge
      · exact repMovsq_mem_lo _ _ a (by show a < t.rsp + 0x28; omega)
      · exact repMovsq_mem_hi _ _ a (by show t.rsp + 0x28 + 8 * (t.rcx - 4) ≤ a; omega)

/-- Claim C2: in `do_syscall`, when the argument count in `rdx` is at
most 4 (or the remaining count is signed-non-positive, i.e. the count has
its top bit set) no spill copy runs: memory changes only at the two
private save slots.  When the count exceeds 4, exactly `count − 4` words
are copied in order from the caller frame slots `[rsp+0x38+8i]` to the
kernel-convention slots `[rsp+0x28+8i]`, and no memory outside the
copied block and the two save slots changes. -/
theorem do_syscall_spill (s : MachineState) (hdx : s.rdx < 2 ^ 64) :
    (s.rdx ≤ 4 ∨ 2 ^ 63 ≤ s.rdx →
      ∀ a : Nat, a ≠ s.rsp - 0x8 → a ≠ s.rsp - 0x10 →
        (syscallEntry s).mem a = s.mem a) ∧
    (4 < s.rdx → s.rdx < 2 ^ 63 →
      (∀ i < s.rdx - 4,
        (syscallEntry s).mem (s.rsp + 0x28 + 8 * i) = s.mem (s.rsp + 0x38 + 8 * i)) ∧
      (∀ a : Nat, a ≠ s.rsp - 0x8 → a ≠ s.rsp - 0x10 →
        (a < s.rsp + 0x28 ∨ s.rsp + 0x28 + 8 * (s.rdx - 4) ≤ a) →
        (syscallEntry s).mem a = s.mem a)) := by
  have hspec := spillArgs_spec (marshalRegs (saveRegs s)) hdx
  constructor
  · intro hc a ha8 ha10
    have h1 := hspec.1 hc
    show (spillArgs (marshalRegs (saveRegs s))).mem a = s.mem a
    rw [h1]
    show store (store s.mem (s.rsp - 0x8) s.rsi) (s.rsp - 0x10) s.rdi a = s.mem a
    unfold store
    rw [if_neg ha10, if_neg ha8]
  · intro h4 h63
    have h2 := hspec.2 h4 h63
    constructor
    · intro i hi
      refine Eq.trans (h2.1 i hi) ?_
      show store (store s.mem (s.rsp - 0x8) s.rsi) (s.rsp - 0x10) s.rdi
        (s.rsp + 0x38 + 8 * i) = s.mem (s.rsp + 0x38 + 8 * i)
      unfold store
      rw [if_neg (by omega), if_neg (by omega)]
    · intro a ha8 ha10 hout
      refine Eq.trans (h2.2 a hout) ?_
      show store (store s.mem (s.rsp - 0x8) s.rsi) (s.rsp - 0x10) s.rdi a = s.mem a
      unfold store
      rw [if_neg ha10, if_neg ha8]

/-- Witness for claim C2 at a state with `rsp = 64`, argument count 6,
and memory holding its own address at every word: both extra words land
at the kernel-convention slots, and a word outside the copied block is
untouched. -/
theorem do_syscall_spill_witness :
    (syscallEntry ⟨0, 0, 6, 0, 0, 0, 0, 1, 2, 64, fun a => a⟩).mem (64 + 0x28 + 8 * 0)
      = 64 + 0x38 + 8 * 0 ∧
    (syscallEntry ⟨0, 0, 6, 0, 0, 0, 0, 1, 2, 64, fun a => a⟩).mem (64 + 0x28 + 8 * 1)
      = 64 + 0x38 + 8 * 1 ∧
    (syscallEntry ⟨0, 0, 6, 0, 0, 0, 0, 1, 2, 64, fun a => a⟩).mem 32 = 32 := by
  have h := (do_syscall_spill ⟨0, 0, 6, 0, 0, 0, 0, 1, 2, 64, fun a => a⟩
    (by norm_num)).2 (by norm_num) (by norm_num)
  exact ⟨h.1 0 (by norm_num), h.1 1 (by norm_num),
    h.2 32 (by norm_num) (by norm_num) (Or.inl (by norm_num))⟩

/-- At the `syscall` instruction the stack pointer is unchanged and the
two private save slots still hold the entry values of `rsi` and `rdi`. -/
lemma syscallEntry_frame (s : MachineState) (hrsp : 16 ≤ s.rsp) :
    (syscallEntry s).rsp = s.rsp ∧
    (syscallEntry s).mem (s.rsp - 0x8) = s.rsi ∧
    (syscallEntry s).mem (s.rsp - 0x10) = s.rdi := by
  have hsave8 : store (store s.mem (s.rsp - 0x8) s.rsi) (s.rsp - 0x10) s.rdi
      (s.rsp - 0x8) = s.rsi := by
    unfold store
    rw [if_neg (by omega), if_pos rfl]
  have hsave10 : store (store s.mem (s.rsp - 0x8) s.rsi) (s.rsp - 0x10) s.rdi
      (s.rsp - 0x10) = s.rdi := by
    unfold store
    rw [if_pos rfl]
  unfold syscallEntry spillArgs
  by_cases hj : jleTaken (marshalRegs (saveRegs s)).rcx
  · rw [if_pos hj]
    exact ⟨rfl, hsave8, hsave10⟩
  · rw [if_neg hj]
    refine ⟨?_, ?_, ?_⟩
    · exact repMovsq_rsp _ _
    · rw [repMovsq_mem_lo _ _ _ (by show s.rsp - 0x8 < s.rsp + 0x28; omega)]
      exact hsave8
    · rw [repMovsq_mem_lo _ _ _ (by show s.rsp - 0x10 < s.rsp + 0x28; omega)]
      exact hsave10

/-- Claim C9: `do_syscall` saves `rsi` and `rdi` to private stack slots
and restores them just before returning, so their caller-visible values
are unchanged across the call, and the value the kernel transition
leaves in `rax` is returned to the caller unmodified. -/
theorem do_syscall_preserves (k : Kernel) (s : MachineState) (hrsp : 16 ≤ s.rsp) :
    (do_syscall k s).rsi = s.rsi ∧
    (do_syscall k s).rdi = s.rdi ∧
    (do_syscall k s).rax = k.result (syscallEntry s) := by
  have hf := syscallEntry_frame s hrsp
  refine ⟨?_, ?_, rfl⟩
  · show (syscallEntry s).mem ((syscallEntry s).rsp - 0x8) = s.rsi
    rw [hf.1]
    exact hf.2.1
  · show (syscallEntry s).mem ((syscallEntry s).rsp - 0x10) = s.rdi
    rw [hf.1]
    exact hf.2.2

/-- Witness for claim C9 with a kernel oracle returning 42 and a state
with `rsp = 64`, `rsi = 1`, `rdi = 2`. -/
theorem do_syscall_preserves_witness :
    (do_syscall ⟨fun _ => 42, fun _ => 7, fun _ => 9⟩
      ⟨0, 0, 0, 0, 0, 0, 0, 1, 2, 64, fun a => a⟩).rsi = 1 ∧
    (do_syscall ⟨fun _ => 42, fun _ => 7, fun _ => 9⟩
      ⟨0, 0, 0, 0, 0, 0, 0, 1, 2, 64, fun a => a⟩).rdi = 2 ∧
    (do_syscall ⟨fun _ => 42, fun _ => 7, fun _ => 9⟩
      ⟨0, 0, 0, 0, 0, 0, 0, 1, 2, 64, fun a => a⟩).rax = 42 :=
  do_syscall_preserves ⟨fun _ => 42, fun _ => 7, fun _ => 9⟩
    ⟨0, 0, 0, 0, 0, 0, 0, 1, 2, 64, fun a => a⟩ (by norm_num)

end GoNativeSyscall
